import Mathlib

/-!
Verification development for the `gtl` LRU cache
(`include/gtl/lru_cache.hpp`).

The cache logic lives in the lambdas passed by `lru_cache_impl` (and the
recycle-queue variants) to the sharded map's callback API.  The sharded
map itself (`gtl::parallel_flat_hash_map`, header `phmap.hpp`) is not part
of the sources verified here; its callback protocol (`if_contains` visits
the found entry and the shard's list under the shard lock,
`lazy_emplace_l` runs the existing-key lambda when the key is present and
otherwise the constructing lambda, then erases the optional key the lambda
returns) is modelled from the design document, §4.5, together with the
invariant that the index holds exactly the keys of the recency list.  A
single shard is therefore embedded as its recency list (front = MRU);
the index is the set of keys of that list.
-/

set_option autoImplicit false
set_option linter.unusedSectionVars false

namespace Gtl

/-- One shard of `lru_cache_impl`: the per-shard capacity `_max_size`
and the recency list (front = most recently used). -/
structure LruCache (K V : Type) where
  maxSize : Nat
  recency : List (K × V)
deriving Repr, DecidableEq

/-- `set_cache_size`: `_max_size = max_size / num_submaps` (C++ integer
division, i.e. floor). -/
def perShardCapacity (maxSize numSubmaps : Nat) : Nat :=
  maxSize / numSubmaps

/-- The per-shard capacity as the spec's words state it:
`ceil(max_size / S)`.  Written from the spec, to be compared with
`perShardCapacity`, which is written from the source. -/
def specCeilCapacity (maxSize numSubmaps : Nat) : Nat :=
  (maxSize + numSubmaps - 1) / numSubmaps

/-- The constructor's `assert(_max_size > 2)`, after
`set_cache_size(max_size)` has run. -/
def ctorAssert (maxSize numSubmaps : Nat) : Prop :=
  2 < perShardCapacity maxSize numSubmaps

instance (m s : Nat) : Decidable (ctorAssert m s) := by
  unfold ctorAssert; infer_instance

/-- A freshly constructed cache: empty recency list, capacity from
`set_cache_size`. -/
def mkCache (K V : Type) (maxSize numSubmaps : Nat) : LruCache K V :=
  { maxSize := perShardCapacity maxSize numSubmaps, recency := [] }

variable {K V : Type} [DecidableEq K]

/-- The probe the shard performs for key `k`: the first (under the key
uniqueness invariant, the only) entry whose key equals `k`. -/
def findEntry (l : List (K × V)) (k : K) : Option (K × V) :=
  l.find? fun p => decide (p.1 = k)

/-- `exists(k)`: probe the index, do not promote. -/
def existsK (c : LruCache K V) (k : K) : Bool :=
  (findEntry c.recency k).isSome

/-- `get(k)`: on a hit, copy the value out and splice the node to the
front of the recency list; on a miss return the absent sentinel. -/
def get (c : LruCache K V) (k : K) : Option V × LruCache K V :=
  match findEntry c.recency k with
  | some e =>
      (some e.2,
       { c with recency := e :: c.recency.eraseP fun p => decide (p.1 = k) })
  | none => (none, c)

/-- The tail node of the list after `push_front` of `(k, v)`
(`last = --l.end()` in the source, on a list that is never empty). -/
def lastEntry (k : K) (v : V) (rest : List (K × V)) : K × V :=
  ((k, v) :: rest).getLast (List.cons_ne_nil _ _)

/-- `insert(key, value)`: if the key is present, overwrite the value in
place and splice the node to the front; otherwise prepend a new node and,
when the list now exceeds `_max_size`, pop the tail and return its key so
the map erases it from the index.  The returned option is that evicted
key. -/
def insert (c : LruCache K V) (k : K) (v : V) : LruCache K V × Option K :=
  match findEntry c.recency k with
  | some e =>
      ({ c with recency := (e.1, v) :: c.recency.eraseP fun p => decide (p.1 = k) },
       none)
  | none =>
      if c.maxSize < c.recency.length + 1 then
        ({ c with recency := ((k, v) :: c.recency).dropLast },
         some (lastEntry k v c.recency).1)
      else
        ({ c with recency := (k, v) :: c.recency }, none)

/-- `clear()`. -/
def clear (c : LruCache K V) : LruCache K V :=
  { c with recency := [] }

/-- `size()`: the index size, which the shard invariant keeps equal to
the recency list's length. -/
def size (c : LruCache K V) : Nat :=
  c.recency.length

/-- The shard invariant that keys are unique in the recency list
(one entry per live key). -/
def KeysNodup (c : LruCache K V) : Prop :=
  (c.recency.map Prod.fst).Nodup

instance (c : LruCache K V) : Decidable (KeysNodup c) := by
  unfold KeysNodup; infer_instance

/-- Operations a client can run against one shard (the ones that touch
the recency list). -/
inductive Op (K V : Type) where
  | ins (k : K) (v : V)
  | read (k : K)
deriving Repr

/-- One client operation, state to state. -/
def step (c : LruCache K V) : Op K V → LruCache K V
  | .ins k v => (insert c k v).1
  | .read k => (get c k).2

/-- A sequence of client operations. -/
def run (c : LruCache K V) (ops : List (Op K V)) : LruCache K V :=
  ops.foldl step c

/-- The insert-only operation sequence for a list of key/value pairs. -/
def insertsOf (kvs : List (K × V)) : List (Op K V) :=
  kvs.map fun e => .ins e.1 e.2

/-!
The recycle-queue variant `lru_cache_with_q_impl`.

The delayed recycle queue (`atomic_queue::AtomicQueue`, an external
bounded queue primitive) is embedded as its capacity together with its
current contents; `try_push` appends when there is room and reports
failure when the queue is full.  The payloads are `(expiry tag, value)`
pairs; the tag is a `uint32_t` that the cache only stores, never computes
with.
-/

/-- The bounded delayed-recycle queue: capacity `DELAY_QUEUE_SIZE` and
current contents, oldest first. -/
structure DelayQueue (V : Type) where
  capacity : Nat
  items : List (Nat × V)
deriving Repr, DecidableEq

/-- `try_push`: enqueue when there is room, otherwise fail leaving the
queue unchanged. -/
def tryPush (q : DelayQueue V) (x : Nat × V) : DelayQueue V × Bool :=
  if q.items.length < q.capacity then
    ({ q with items := q.items ++ [x] }, true)
  else
    (q, false)

/-- One shard of `lru_cache_with_q_impl`: capacity, recency list, and
the delayed-recycle-queue handle `_delayed_recycle_queue_ptr`
(`none` embeds a null pointer). -/
structure LruCacheQ (K V : Type) where
  maxSize : Nat
  recency : List (K × V)
  dq : Option (DelayQueue V)
deriving Repr, DecidableEq

/-- The plain-cache view of a recycle-variant shard: same capacity, same
recency list, queue forgotten. -/
def LruCacheQ.toPlain (c : LruCacheQ K V) : LruCache K V :=
  { maxSize := c.maxSize, recency := c.recency }

/-- The `lru_cache_with_q_impl` constructor: runs `set_cache_size`, then
`assert(_max_size > 2)`.  The assertion firing is embedded as `none`;
note it never inspects the queue handle `dq`. -/
def mkCacheQ (K V : Type) (maxSize numSubmaps : Nat)
    (dq : Option (DelayQueue V)) : Option (LruCacheQ K V) :=
  if 2 < perShardCapacity maxSize numSubmaps then
    some { maxSize := perShardCapacity maxSize numSubmaps, recency := [], dq := dq }
  else
    none

/-- `exists(k)` of the recycle variant. -/
def existsQ (c : LruCacheQ K V) (k : K) : Bool :=
  (findEntry c.recency k).isSome

/-- `get(k, res)` of the recycle variant: same hit/promote protocol as
the plain cache, result returned through the out-parameter. -/
def getQ (c : LruCacheQ K V) (k : K) : Option V × LruCacheQ K V :=
  match findEntry c.recency k with
  | some e =>
      (some e.2,
       { c with recency := e :: c.recency.eraseP fun p => decide (p.1 = k) })
  | none => (none, c)

/-- `insert(key, value, expirt)` of the recycle variant.  When the queue
handle is non-null, the displaced value (the overwritten value on the
existing-key path, the tail's value on the eviction path) is boxed with
the expiry tag and `try_push`ed before the overwrite or `pop_back`; a
failed push deletes the box and the insert carries on.  Returns the new
shard state, the evicted key handed back to the map, and the number of
push attempts made. -/
def insertQ (c : LruCacheQ K V) (k : K) (v : V) (expirt : Nat) :
    LruCacheQ K V × Option K × Nat :=
  match findEntry c.recency k with
  | some e =>
      match c.dq with
      | some q =>
          ({ c with
              recency := (e.1, v) :: c.recency.eraseP fun p => decide (p.1 = k),
              dq := some (tryPush q (expirt, e.2)).1 },
           none, 1)
      | none =>
          ({ c with recency := (e.1, v) :: c.recency.eraseP fun p => decide (p.1 = k) },
           none, 0)
  | none =>
      if c.maxSize < c.recency.length + 1 then
        match c.dq with
        | some q =>
            ({ c with
                recency := ((k, v) :: c.recency).dropLast,
                dq := some (tryPush q (expirt, (lastEntry k v c.recency).2)).1 },
             some (lastEntry k v c.recency).1, 1)
        | none =>
            ({ c with recency := ((k, v) :: c.recency).dropLast },
             some (lastEntry k v c.recency).1, 0)
      else
        ({ c with recency := (k, v) :: c.recency }, none, 0)

/-- `clear()` of the recycle variant. -/
def clearQ (c : LruCacheQ K V) : LruCacheQ K V :=
  { c with recency := [] }

/-- `size()` of the recycle variant. -/
def sizeQ (c : LruCacheQ K V) : Nat :=
  c.recency.length

/-- `set_cache_size(max_size)` of the plain cache:
`_max_size = max_size / num_submaps`. -/
def set_cache_size (c : LruCache K V) (maxSize numSubmaps : Nat) : LruCache K V :=
  { c with maxSize := perShardCapacity maxSize numSubmaps }

/-- `set_cache_size(max_size)` of the recycle variant: same formula. -/
def set_cache_sizeQ (c : LruCacheQ K V) (maxSize numSubmaps : Nat) : LruCacheQ K V :=
  { c with maxSize := perShardCapacity maxSize numSubmaps }

/-! ### Basic facts about the shard probe -/

theorem findEntry_key {l : List (K × V)} {k : K} {e : K × V}
    (h : findEntry l k = some e) : e.1 = k := by
  have := List.find?_some h
  simpa using this

theorem findEntry_mem {l : List (K × V)} {k : K} {e : K × V}
    (h : findEntry l k = some e) : e ∈ l :=
  List.mem_of_find?_eq_some h

theorem findEntry_eq_none {l : List (K × V)} {k : K} :
    findEntry l k = none ↔ ∀ e ∈ l, e.1 ≠ k := by
  unfold findEntry
  simp

/-- On a list with unique keys, erasing the first entry for `k` is the
same as filtering out every entry for `k`. -/
theorem eraseP_eq_filter_of_nodup {l : List (K × V)} (k : K)
    (h : (l.map Prod.fst).Nodup) :
    (l.eraseP fun p => decide (p.1 = k)) = l.filter fun p => decide (¬ p.1 = k) := by
  induction l with
  | nil => rfl
  | cons a t ih =>
      rw [List.map_cons, List.nodup_cons] at h
      by_cases hk : a.1 = k
      · rw [List.eraseP_cons_of_pos (by simpa using hk),
          List.filter_cons_of_neg (by simpa using hk)]
        symm
        rw [List.filter_eq_self]
        intro x hx
        simp only [decide_eq_true_eq]
        intro hxk
        apply h.1
        have hmem : x.1 ∈ t.map Prod.fst := List.mem_map_of_mem Prod.fst hx
        rwa [hxk, ← hk] at hmem
      · rw [List.eraseP_cons_of_neg (by simpa using hk),
          List.filter_cons_of_pos (by simpa using hk), ih h.2]

theorem findEntry_eq_none_of_existsK_false {c : LruCache K V} {k : K}
    (h : existsK c k = false) : findEntry c.recency k = none := by
  unfold existsK at h
  cases hf : findEntry c.recency k with
  | none => rfl
  | some e => rw [hf] at h; simp at h

/-! ### Branch characterizations of the shard operations -/

theorem insert_present {c : LruCache K V} {k : K} {e : K × V} (v : V)
    (h : findEntry c.recency k = some e) :
    insert c k v =
      ({ c with recency := (e.1, v) :: c.recency.eraseP fun p => decide (p.1 = k) },
       none) := by
  simp [insert, h]

theorem insert_absent_evict {c : LruCache K V} {k : K} (v : V)
    (h : findEntry c.recency k = none) (hlen : c.maxSize < c.recency.length + 1) :
    insert c k v =
      ({ c with recency := ((k, v) :: c.recency).dropLast },
       some (lastEntry k v c.recency).1) := by
  simp [insert, h, hlen]

theorem insert_absent_fits {c : LruCache K V} {k : K} (v : V)
    (h : findEntry c.recency k = none) (hlen : ¬ c.maxSize < c.recency.length + 1) :
    insert c k v = ({ c with recency := (k, v) :: c.recency }, none) := by
  simp [insert, h, hlen]

theorem get_hit {c : LruCache K V} {k : K} {e : K × V}
    (h : findEntry c.recency k = some e) :
    get c k =
      (some e.2, { c with recency := e :: c.recency.eraseP fun p => decide (p.1 = k) }) := by
  simp [get, h]

theorem get_miss {c : LruCache K V} {k : K}
    (h : findEntry c.recency k = none) : get c k = (none, c) := by
  simp [get, h]

/-- The tail of the list after a `push_front` onto a list ending in `e`
is `e` itself. -/
theorem lastEntry_concat (k : K) (v : V) (l : List (K × V)) (e : K × V) :
    lastEntry k v (l ++ [e]) = e := by
  have h1 : List.getLast? ((k, v) :: (l ++ [e])) = some (lastEntry k v (l ++ [e])) :=
    List.getLast?_eq_getLast _ _
  rw [show (k, v) :: (l ++ [e]) = ((k, v) :: l) ++ [e] from rfl,
    List.getLast?_concat] at h1
  exact (Option.some.inj h1).symm

/-- Whatever branch `insert` takes on a cache of positive capacity, the
new node for `k` ends up at the front of the recency list. -/
theorem insert_recency_head (c : LruCache K V) (k : K) (v : V)
    (hpos : 0 < c.maxSize) :
    ∃ t, (insert c k v).1.recency = (k, v) :: t := by
  cases hf : findEntry c.recency k with
  | some e =>
      rw [insert_present v hf]
      refine ⟨c.recency.eraseP fun p => decide (p.1 = k), ?_⟩
      rw [findEntry_key hf]
  | none =>
      by_cases hlen : c.maxSize < c.recency.length + 1
      · rw [insert_absent_evict v hf hlen]
        have hne : c.recency ≠ [] := by
          intro h0
          rw [h0] at hlen
          simp at hlen
          omega
        obtain ⟨x, xs, hxx⟩ := List.exists_cons_of_ne_nil hne
        refine ⟨(x :: xs).dropLast, ?_⟩
        simp only [hxx, List.dropLast_cons₂]
      · rw [insert_absent_fits v hf hlen]
        exact ⟨c.recency, rfl⟩

/-! ### Claim C1: size bound and single tail eviction -/

/-- Claim C1: with one shard of capacity `_max_size`, `insert` preserves
`size() ≤ _max_size`; and when an insert of an absent key grows the list
beyond capacity, the evicted node is exactly the tail, the net size is
unchanged (one added, one removed), and the size equals the capacity on
return. -/
theorem insert_size_bound (c : LruCache K V) (k : K) (v : V)
    (hle : size c ≤ c.maxSize) :
    size (insert c k v).1 ≤ c.maxSize ∧
    (existsK c k = false → c.maxSize < size c + 1 →
      (insert c k v).2 = some (lastEntry k v c.recency).1 ∧
      size (insert c k v).1 = size c ∧
      size (insert c k v).1 = c.maxSize) := by
  cases hf : findEntry c.recency k with
  | some e =>
      rw [insert_present v hf]
      have hmem := findEntry_mem hf
      have hkey : (fun p => decide (p.1 = k)) e = true := by
        simp [findEntry_key hf]
      have hlen : (c.recency.eraseP fun p => decide (p.1 = k)).length
          = c.recency.length - 1 := List.length_eraseP_of_mem hmem hkey
      have hpos : 0 < c.recency.length :=
        List.length_pos.mpr (List.ne_nil_of_mem hmem)
      constructor
      · simp only [size, List.length_cons, hlen] at *
        omega
      · intro habs
        rw [existsK, hf] at habs
        simp at habs
  | none =>
      by_cases hlen : c.maxSize < c.recency.length + 1
      · rw [insert_absent_evict v hf hlen]
        simp only [size, List.length_dropLast, List.length_cons] at *
        exact ⟨by omega, fun _ _ => ⟨trivial, by omega, by omega⟩⟩
      · rw [insert_absent_fits v hf hlen]
        simp only [size, List.length_cons] at *
        exact ⟨by omega, fun _ hcon => absurd hcon hlen⟩

/-- Claim C1, witness: a full one-shard cache of capacity 3 receiving a
fourth distinct key evicts exactly the tail key `3` and stays at size 3. -/
theorem insert_size_bound_w :
    size (insert (⟨3, [(1, 10), (2, 20), (3, 30)]⟩ : LruCache Nat Nat) 4 40).1 ≤ 3 ∧
    (insert (⟨3, [(1, 10), (2, 20), (3, 30)]⟩ : LruCache Nat Nat) 4 40).2 = some 3 :=
  ⟨(insert_size_bound ⟨3, [(1, 10), (2, 20), (3, 30)]⟩ 4 40 (by decide)).1,
   ((insert_size_bound ⟨3, [(1, 10), (2, 20), (3, 30)]⟩ 4 40 (by decide)).2
      (by decide) (by decide)).1⟩

/-! ### Claim C2: membership after insert -/

/-- Claim C2: immediately after `insert(k, v)` on a cache of positive
capacity, `exists(k)` is true, `get(k)` returns `some v`, and the node
for `k` sits at the front of the recency list. -/
theorem membership_after_insert (c : LruCache K V) (k : K) (v : V)
    (hpos : 0 < c.maxSize) :
    existsK (insert c k v).1 k = true ∧
    (get (insert c k v).1 k).1 = some v ∧
    (insert c k v).1.recency.head? = some (k, v) := by
  obtain ⟨t, ht⟩ := insert_recency_head c k v hpos
  have hfind : findEntry (insert c k v).1.recency k = some (k, v) := by
    rw [ht]
    simp [findEntry]
  refine ⟨?_, ?_, ?_⟩
  · simp [existsK, hfind]
  · rw [get_hit hfind]
  · rw [ht]
    simp

/-- Claim C2, witness on a small populated cache. -/
theorem membership_after_insert_w :
    existsK (insert (⟨3, [(1, 10), (2, 20), (3, 30)]⟩ : LruCache Nat Nat) 4 40).1 4 = true ∧
    (get (insert (⟨3, [(1, 10), (2, 20), (3, 30)]⟩ : LruCache Nat Nat) 4 40).1 4).1 = some 40 ∧
    (insert (⟨3, [(1, 10), (2, 20), (3, 30)]⟩ : LruCache Nat Nat) 4 40).1.recency.head?
      = some (4, 40) :=
  membership_after_insert ⟨3, [(1, 10), (2, 20), (3, 30)]⟩ 4 40 (by decide)

/-! ### Claim C9: insertion never evicts the key it inserts -/

/-- Claim C9: inserting an absent key into a cache satisfying the
construction precondition (capacity > 2) never evicts the key being
inserted, and the key is present when `insert` returns. -/
theorem insert_no_self_evict (c : LruCache K V) (k : K) (v : V)
    (hcap : 2 < c.maxSize) (habs : existsK c k = false) :
    (∀ ke, (insert c k v).2 = some ke → ke ≠ k) ∧
    existsK (insert c k v).1 k = true := by
  have hf : findEntry c.recency k = none := findEntry_eq_none_of_existsK_false habs
  constructor
  · intro ke hke
    by_cases hlen : c.maxSize < c.recency.length + 1
    · rw [insert_absent_evict v hf hlen] at hke
      have hne : c.recency ≠ [] := by
        intro h0
        rw [h0] at hlen
        simp at hlen
        omega
      have hl : lastEntry k v c.recency = c.recency.getLast hne := by
        unfold lastEntry
        exact List.getLast_cons hne
      have hmem : c.recency.getLast hne ∈ c.recency := List.getLast_mem hne
      have hkne := (findEntry_eq_none.mp hf) _ hmem
      have : ke = (c.recency.getLast hne).1 := by
        rw [← hl]
        exact (Option.some.inj hke.symm)
      rw [this]
      exact hkne
    · rw [insert_absent_fits v hf hlen] at hke
      exact absurd hke (by simp)
  · obtain ⟨t, ht⟩ := insert_recency_head c k v (by omega)
    have hfind : findEntry (insert c k v).1.recency k = some (k, v) := by
      rw [ht]
      simp [findEntry]
    simp [existsK, hfind]

/-- Claim C9, witness: a full capacity-3 cache receiving key 4 evicts a
different key and keeps key 4. -/
theorem insert_no_self_evict_w :
    (∀ ke, (insert (⟨3, [(1, 10), (2, 20), (3, 30)]⟩ : LruCache Nat Nat) 4 40).2 = some ke
      → ke ≠ 4) ∧
    existsK (insert (⟨3, [(1, 10), (2, 20), (3, 30)]⟩ : LruCache Nat Nat) 4 40).1 4 = true :=
  insert_no_self_evict ⟨3, [(1, 10), (2, 20), (3, 30)]⟩ 4 40 (by decide) (by decide)

/-! ### Claim C6: overwrite does not evict -/

/-- Claim C6: inserting a key that is already present overwrites in place,
evicts nothing and leaves `size()` unchanged; concretely, on a fresh
one-shard cache `insert(1, 1); insert(1, 2)` gives `size() = 1` and
`get(1) = some 2`. -/
theorem overwrite_no_evict (c : LruCache K V) (k : K) (v2 : V)
    (hk : existsK c k = true) :
    (insert c k v2).2 = none ∧ size (insert c k v2).1 = size c ∧
    size (insert (insert (mkCache Nat Nat 16 1) 1 1).1 1 2).1 = 1 ∧
    (get (insert (insert (mkCache Nat Nat 16 1) 1 1).1 1 2).1 1).1 = some 2 := by
  obtain ⟨e, hf⟩ : ∃ e, findEntry c.recency k = some e := by
    unfold existsK at hk
    exact Option.isSome_iff_exists.mp hk
  rw [insert_present v2 hf]
  have hmem := findEntry_mem hf
  have hlen : (c.recency.eraseP fun p => decide (p.1 = k)).length
      = c.recency.length - 1 :=
    List.length_eraseP_of_mem hmem (by simp [findEntry_key hf])
  have hpos : 0 < c.recency.length :=
    List.length_pos.mpr (List.ne_nil_of_mem hmem)
  refine ⟨rfl, ?_, by decide, by decide⟩
  simp only [size, List.length_cons, hlen]
  omega

/-- Claim C6, witness: overwriting the only key of a singleton cache. -/
theorem overwrite_no_evict_w :
    (insert (⟨16, [(1, 1)]⟩ : LruCache Nat Nat) 1 2).2 = none ∧
    size (insert (⟨16, [(1, 1)]⟩ : LruCache Nat Nat) 1 2).1
      = size (⟨16, [(1, 1)]⟩ : LruCache Nat Nat) :=
  ⟨(overwrite_no_evict ⟨16, [(1, 1)]⟩ 1 2 (by decide)).1,
   (overwrite_no_evict ⟨16, [(1, 1)]⟩ 1 2 (by decide)).2.1⟩

/-! ### Claim C3: get promotes to MRU; the read key survives the next eviction -/

theorem run_cons (c : LruCache K V) (o : Op K V) (ops : List (Op K V)) :
    run c (o :: ops) = run (step c o) ops :=
  rfl

/-- Inserting a list of fresh, distinct keys that fits in the remaining
capacity prepends them (in reverse, newest first) and keeps the
capacity. -/
theorem run_insertsOf (kvs : List (K × V)) :
    ∀ c : LruCache K V,
      (∀ e ∈ kvs, e.1 ∉ c.recency.map Prod.fst) →
      (kvs.map Prod.fst).Nodup →
      c.recency.length + kvs.length ≤ c.maxSize →
      (run c (insertsOf kvs)).maxSize = c.maxSize ∧
      (run c (insertsOf kvs)).recency = kvs.reverse ++ c.recency := by
  induction kvs with
  | nil =>
      intro c _ _ _
      exact ⟨rfl, by simp [run, insertsOf]⟩
  | cons e t ih =>
      intro c hfresh hnd hlen
      have hf : findEntry c.recency e.1 = none := by
        rw [findEntry_eq_none]
        intro x hx hxk
        exact hfresh e (by simp) (hxk ▸ List.mem_map_of_mem Prod.fst hx)
      have hnoev : ¬ c.maxSize < c.recency.length + 1 := by
        simp only [List.length_cons] at hlen
        omega
      have hstep : step c (Op.ins e.1 e.2) = { c with recency := e :: c.recency } := by
        simp only [step]
        rw [insert_absent_fits e.2 hf hnoev]
      rw [List.map_cons] at hnd
      have hnd' := List.nodup_cons.mp hnd
      have hih := ih { c with recency := e :: c.recency }
        (by
          intro x hx
          simp only [List.map_cons, List.mem_cons, not_or]
          constructor
          · intro hxe
            exact hnd'.1 (hxe ▸ List.mem_map_of_mem Prod.fst hx)
          · exact hfresh x (List.mem_cons_of_mem e hx))
        hnd'.2
        (by
          simp only [List.length_cons] at *
          omega)
      have hrw : run c (insertsOf (e :: t)) = run { c with recency := e :: c.recency } (insertsOf t) := by
        simp only [insertsOf, List.map_cons]
        rw [run_cons, hstep]
      rw [hrw]
      refine ⟨hih.1, ?_⟩
      rw [hih.2]
      simp

/-- Claim C3: on a one-shard cache of capacity `M` filled with `M`
distinct keys, `get` of the oldest key returns its value and moves it to
the front; a subsequent insert of one more fresh key evicts the
second-oldest key, not the one just read. -/
theorem get_promotes_evicts_second_oldest (e0 e1 : K × V) (rest : List (K × V))
    (knew : K) (vnew : V) (M : Nat)
    (hM : M = (e0 :: e1 :: rest).length)
    (hnd : ((e0 :: e1 :: rest).map Prod.fst).Nodup)
    (hfresh : knew ∉ (e0 :: e1 :: rest).map Prod.fst) :
    (get (run (mkCache K V M 1) (insertsOf (e0 :: e1 :: rest))) e0.1).1 = some e0.2 ∧
    (get (run (mkCache K V M 1) (insertsOf (e0 :: e1 :: rest))) e0.1).2.recency.head?
      = some e0 ∧
    (insert (get (run (mkCache K V M 1) (insertsOf (e0 :: e1 :: rest))) e0.1).2
        knew vnew).2 = some e1.1 ∧
    e1.1 ≠ e0.1 := by
  have hm' : M = rest.length + 2 := by simpa using hM
  have hrun := run_insertsOf (e0 :: e1 :: rest) (mkCache K V M 1)
    (by intro x hx; simp [mkCache])
    hnd
    (by simp [mkCache, perShardCapacity]; omega)
  have hrec1 : (run (mkCache K V M 1) (insertsOf (e0 :: e1 :: rest))).recency
      = (e1 :: rest).reverse ++ [e0] := by
    rw [hrun.2]
    simp [mkCache, List.reverse_cons]
  have hms1 : (run (mkCache K V M 1) (insertsOf (e0 :: e1 :: rest))).maxSize = M := by
    rw [hrun.1]
    simp [mkCache, perShardCapacity]
  rw [List.map_cons] at hnd
  have hnd' := List.nodup_cons.mp hnd
  have hkeys : ∀ x ∈ (e1 :: rest).reverse, ¬ (decide (x.1 = e0.1) = true) := by
    intro x hx
    simp only [decide_eq_true_eq]
    intro heq
    exact hnd'.1 (heq ▸ List.mem_map_of_mem Prod.fst (List.mem_reverse.mp hx))
  have hfind1 : findEntry (run (mkCache K V M 1) (insertsOf (e0 :: e1 :: rest))).recency e0.1
      = some e0 := by
    rw [hrec1]
    unfold findEntry
    rw [List.find?_append]
    have hnone : (e1 :: rest).reverse.find? (fun p => decide (p.1 = e0.1)) = none :=
      List.find?_eq_none.mpr hkeys
    rw [hnone]
    simp
  have herase : (run (mkCache K V M 1) (insertsOf (e0 :: e1 :: rest))).recency.eraseP
      (fun p => decide (p.1 = e0.1)) = (e1 :: rest).reverse := by
    rw [hrec1, List.eraseP_append_right [e0] hkeys]
    simp
  rw [get_hit hfind1, herase]
  have hne10 : e1.1 ≠ e0.1 := by
    intro heq
    exact hnd'.1 (heq ▸ List.mem_map_of_mem Prod.fst (List.mem_cons_self e1 rest))
  refine ⟨rfl, by simp, ?_, hne10⟩
  have hfind2 : findEntry (e0 :: (e1 :: rest).reverse) knew = none := by
    rw [findEntry_eq_none]
    intro x hx heq
    apply hfresh
    have hx' : x ∈ e0 :: e1 :: rest := by
      rcases List.mem_cons.mp hx with h | h
      · exact h ▸ List.mem_cons_self _ _
      · exact List.mem_cons_of_mem e0 (List.mem_reverse.mp h)
    exact heq ▸ List.mem_map_of_mem Prod.fst hx'
  have hlen2 : (run (mkCache K V M 1) (insertsOf (e0 :: e1 :: rest))).maxSize
      < (e0 :: (e1 :: rest).reverse).length + 1 := by
    rw [hms1]
    simp only [List.length_cons, List.length_reverse]
    omega
  show (insert (⟨(run (mkCache K V M 1) (insertsOf (e0 :: e1 :: rest))).maxSize,
      e0 :: (e1 :: rest).reverse⟩ : LruCache K V) knew vnew).2 = some e1.1
  rw [@insert_absent_evict K V _
    ⟨(run (mkCache K V M 1) (insertsOf (e0 :: e1 :: rest))).maxSize,
      e0 :: (e1 :: rest).reverse⟩ knew vnew hfind2 hlen2]
  have hsplit : e0 :: (e1 :: rest).reverse = (e0 :: rest.reverse) ++ [e1] := by
    simp [List.reverse_cons]
  simp only [hsplit, lastEntry_concat]

/-- Claim C3, witness: capacity 3, keys 1,2,3 inserted in that order,
`get 1`, then insert of key 4 evicts key 2. -/
theorem get_promotes_evicts_second_oldest_w :
    (get (run (mkCache Nat Nat 3 1) (insertsOf [(1, 10), (2, 20), (3, 30)])) 1).1
      = some 10 ∧
    (insert (get (run (mkCache Nat Nat 3 1) (insertsOf [(1, 10), (2, 20), (3, 30)])) 1).2
        4 40).2 = some 2 :=
  ⟨(get_promotes_evicts_second_oldest (1, 10) (2, 20) [(3, 30)] 4 40 3
      (by decide) (by decide) (by decide)).1,
   (get_promotes_evicts_second_oldest (1, 10) (2, 20) [(3, 30)] 4 40 3
      (by decide) (by decide) (by decide)).2.2.1⟩

/-! ### Claim C4: per-shard capacity formula -/

/-- Claim C4, counterexample: with the default 16 submaps and
`max_size = 17`, the code's per-shard capacity (`17 / 16 = 1`) differs
from the `ceil(max_size / S) = 2` the claim states. -/
theorem perShardCapacity_ne_ceil_at_17_16 :
    perShardCapacity 17 16 = 1 ∧ specCeilCapacity 17 16 = 2 ∧
    ¬ perShardCapacity 17 16 = specCeilCapacity 17 16 := by
  decide

/-- Claim C4, amended: the per-shard capacity established by
`set_cache_size` (and by construction) is the floor `max_size / S`,
not the ceiling; it never exceeds `ceil(max_size / S)` and agrees with
it exactly when `S` divides `max_size`. -/
theorem perShardCapacity_is_floor (c : LruCache K V) (cq : LruCacheQ K V)
    (m S : Nat) (hS : 0 < S) :
    (set_cache_size c m S).maxSize = m / S ∧
    (set_cache_sizeQ cq m S).maxSize = m / S ∧
    (mkCache K V m S).maxSize = m / S ∧
    perShardCapacity m S ≤ specCeilCapacity m S ∧
    (perShardCapacity m S = specCeilCapacity m S ↔ S ∣ m) := by
  refine ⟨rfl, rfl, rfl, ?_, ?_⟩
  · exact Nat.div_le_div_right (by omega)
  · unfold perShardCapacity specCeilCapacity
    constructor
    · intro h
      by_contra hnd
      have hmod : 0 < m % S := Nat.pos_of_ne_zero fun h0 =>
        hnd (Nat.dvd_iff_mod_eq_zero.mpr h0)
      have hlt : m % S < S := Nat.mod_lt _ hS
      have hceil : (m + S - 1) / S = m / S + 1 := by
        have hrew : m + S - 1 = S * (m / S) + (m % S + S - 1) := by
          have hdecomp : m = S * (m / S) + m % S := (Nat.div_add_mod m S).symm
          omega
        have hone : (m % S + S - 1) / S = 1 :=
          Nat.div_eq_of_lt_le (by omega) (by omega)
        rw [hrew, Nat.mul_add_div hS, hone]
      omega
    · intro hdvd
      obtain ⟨q, hq⟩ := hdvd
      subst hq
      have hrew : S * q + S - 1 = S * q + (S - 1) := by omega
      rw [hrew, Nat.mul_add_div hS, Nat.mul_div_cancel_left q hS,
        Nat.div_eq_of_lt (by omega)]
      omega

/-- Claim C4, witness at `max_size = 17`, `S = 16` and at a divisible
pair. -/
theorem perShardCapacity_is_floor_w :
    (set_cache_size (mkCache Nat Nat 0 1) 17 16).maxSize = 17 / 16 ∧
    perShardCapacity 32 16 = specCeilCapacity 32 16 :=
  ⟨(perShardCapacity_is_floor (mkCache Nat Nat 0 1) ⟨0, [], none⟩ 17 16 (by decide)).1,
   (perShardCapacity_is_floor (mkCache Nat Nat 0 1) ⟨0, [], none⟩ 32 16 (by decide)).2.2.2.2.mpr
     (by decide)⟩

/-! ### Claim C5: the constructor assertion -/

/-- Claim C5: the constructor assertion `assert(_max_size > 2)` holds
exactly when the per-shard capacity is at least 3, equivalently exactly
when `3 * S ≤ max_size`; in particular under the precondition
`3 * S ≤ max_size` it never fires. -/
theorem ctorAssert_iff_capacity_ge_three (m S : Nat) (hS : 0 < S) :
    (ctorAssert m S ↔ 3 ≤ perShardCapacity m S) ∧
    (ctorAssert m S ↔ 3 * S ≤ m) ∧
    (3 * S ≤ m → ctorAssert m S) := by
  have h1 : ctorAssert m S ↔ 3 ≤ perShardCapacity m S := Iff.rfl
  have h2 : 3 ≤ m / S ↔ 3 * S ≤ m := Nat.le_div_iff_mul_le hS
  exact ⟨h1, h1.trans h2, fun h => (h1.trans h2).mpr h⟩

/-- Claim C5, witness: `max_size = 48`, `S = 16` satisfies the
precondition and the assertion. -/
theorem ctorAssert_iff_capacity_ge_three_w : ctorAssert 48 16 :=
  (ctorAssert_iff_capacity_ge_three 48 16 (by decide)).2.2 (by decide)

/-! ### Claim C7: recycle-queue push accounting and queue-full policy -/

/-- Claim C7: with a configured recycle queue, `insert` attempts exactly
one push when it overwrites an existing key, exactly one when it evicts,
and none otherwise; the effect on the cache itself (recency list,
capacity, evicted key) is exactly that of the plain `insert`, whether or
not the push succeeds; and when the queue is full the push fails and the
queue is left unchanged (the payload is discarded, no error surfaces). -/
theorem recycle_push_accounting (c : LruCacheQ K V) (q : DelayQueue V)
    (k : K) (v : V) (tag : Nat) (hq : c.dq = some q) :
    (insertQ c k v tag).2.2 =
      (if existsQ c k = true then 1
       else if c.maxSize < c.recency.length + 1 then 1 else 0) ∧
    (insertQ c k v tag).1.toPlain = (insert c.toPlain k v).1 ∧
    (insertQ c k v tag).2.1 = (insert c.toPlain k v).2 ∧
    (q.capacity ≤ q.items.length → (insertQ c k v tag).1.dq = some q) := by
  obtain ⟨ms, rec, dq⟩ := c
  simp only at hq
  subst hq
  cases hfind : findEntry rec k with
  | some e =>
      refine ⟨?_, ?_, ?_, fun hfull => ?_⟩
      · simp [insertQ, insert, existsQ, hfind]
      · simp [insertQ, insert, LruCacheQ.toPlain, hfind]
      · simp [insertQ, insert, LruCacheQ.toPlain, hfind]
      · simp [insertQ, hfind, tryPush, Nat.not_lt.2 hfull]
  | none =>
      by_cases hlen : ms < rec.length + 1
      · refine ⟨?_, ?_, ?_, fun hfull => ?_⟩
        · simp [insertQ, insert, existsQ, hfind, hlen]
        · simp [insertQ, insert, LruCacheQ.toPlain, hfind, hlen]
        · simp [insertQ, insert, LruCacheQ.toPlain, hfind, hlen]
        · simp [insertQ, hfind, hlen, tryPush, Nat.not_lt.2 hfull]
      · refine ⟨?_, ?_, ?_, fun hfull => ?_⟩
        · simp [insertQ, insert, existsQ, hfind, hlen]
        · simp [insertQ, insert, LruCacheQ.toPlain, hfind, hlen]
        · simp [insertQ, insert, LruCacheQ.toPlain, hfind, hlen]
        · simp [insertQ, hfind, hlen]

/-- Claim C7, witness: overwriting key 1 against a full queue of
capacity 0 attempts one push, drops the payload, leaves the queue
unchanged, and still overwrites. -/
theorem recycle_push_accounting_w :
    (insertQ (⟨3, [(1, 10)], some ⟨0, []⟩⟩ : LruCacheQ Nat Nat) 1 99 7).2.2 = 1 ∧
    (insertQ (⟨3, [(1, 10)], some ⟨0, []⟩⟩ : LruCacheQ Nat Nat) 1 99 7).1.dq
      = some ⟨0, []⟩ :=
  ⟨by
    have h := (recycle_push_accounting ⟨3, [(1, 10)], some ⟨0, []⟩⟩ ⟨0, []⟩ 1 99 7 rfl).1
    simpa using h,
   (recycle_push_accounting ⟨3, [(1, 10)], some ⟨0, []⟩⟩ ⟨0, []⟩ 1 99 7 rfl).2.2.2
     (by decide)⟩

/-! ### Claim C8: a null queue handle at construction -/

/-- Claim C8, counterexample: constructing the recycle variant with the
default `max_size` and a null queue handle succeeds — the constructor's
only assertion is about the per-shard capacity, so no debug assertion or
constructor failure rejects the null handle. -/
theorem null_queue_ctor_succeeds :
    (mkCacheQ Nat Nat 65536 16 none).isSome = true := by
  decide

/-- Claim C8, amended: the recycle-variant constructor never inspects the
queue handle; construction succeeds for a null handle exactly as for any
other handle, and the only precondition checked is `_max_size > 2`
(a null handle simply disables recycling at each use site). -/
theorem ctorQ_ignores_queue_handle (m S : Nat) (dq dq' : Option (DelayQueue V)) :
    ((mkCacheQ K V m S dq).isSome ↔ (mkCacheQ K V m S dq').isSome) ∧
    ((mkCacheQ K V m S dq).isSome ↔ 2 < perShardCapacity m S) := by
  by_cases h : 2 < perShardCapacity m S <;> simp [mkCacheQ, h]

/-! ### Claim C10: a null queue handle refines the plain cache -/

/-- Claim C10: with a null recycle-queue handle, every operation of the
recycle variant produces the same cache state (capacity, recency list,
size) and the same results as the plain cache's operation, performs no
push attempt, and keeps the handle null. -/
theorem null_queue_refines_plain (c : LruCacheQ K V) (k : K) (v : V) (tag : Nat)
    (hq : c.dq = none) :
    existsQ c k = existsK c.toPlain k ∧
    (getQ c k).1 = (get c.toPlain k).1 ∧
    (getQ c k).2.toPlain = (get c.toPlain k).2 ∧
    (getQ c k).2.dq = none ∧
    (insertQ c k v tag).1.toPlain = (insert c.toPlain k v).1 ∧
    (insertQ c k v tag).2.1 = (insert c.toPlain k v).2 ∧
    (insertQ c k v tag).2.2 = 0 ∧
    (insertQ c k v tag).1.dq = none ∧
    sizeQ c = size c.toPlain ∧
    (clearQ c).toPlain = clear c.toPlain ∧
    (clearQ c).dq = none := by
  obtain ⟨ms, rec, dq⟩ := c
  simp only at hq
  subst hq
  cases hfind : findEntry rec k with
  | some e =>
      refine ⟨rfl, ?_, ?_, ?_, ?_, ?_, ?_, ?_, rfl, rfl, rfl⟩ <;>
        simp [insertQ, insert, getQ, get, LruCacheQ.toPlain, hfind]
  | none =>
      by_cases hlen : ms < rec.length + 1 <;>
        refine ⟨rfl, ?_, ?_, ?_, ?_, ?_, ?_, ?_, rfl, rfl, rfl⟩ <;>
          simp [insertQ, insert, getQ, get, LruCacheQ.toPlain, hfind, hlen]

/-- Claim C10, witness: on a null-handle cache, an insert of a fresh key
matches the plain insert and attempts no push. -/
theorem null_queue_refines_plain_w :
    (insertQ (⟨16, [(1, 10)], none⟩ : LruCacheQ Nat Nat) 5 55 0).1.toPlain
      = (insert (LruCacheQ.toPlain ⟨16, [(1, 10)], none⟩) 5 55).1 ∧
    (insertQ (⟨16, [(1, 10)], none⟩ : LruCacheQ Nat Nat) 5 55 0).2.2 = 0 :=
  ⟨(null_queue_refines_plain ⟨16, [(1, 10)], none⟩ 5 55 0 rfl).2.2.2.2.1,
   (null_queue_refines_plain ⟨16, [(1, 10)], none⟩ 5 55 0 rfl).2.2.2.2.2.2.1⟩

end Gtl
